import Mathlib

/-!
Verification of the SQL-safety core of `app_streamlit_upload_db_ui.py`
(the `FORBIDDEN` pattern, `enforce_read_only`, and `extract_sql`).

Python strings are modelled as `List Char`.  The Python regular-expression
character classes are modelled at ASCII precision, which is exact for every
string built from ASCII characters (all the denylist tokens, the LIMIT
suffix and every concrete string considered by the claims are ASCII):
the class `\w` is `[A-Za-z0-9_]`, the class `\s` is the six ASCII
whitespace characters, and `re.IGNORECASE` is ASCII case folding.
-/

/-- Python regex `\w` (ASCII part): letters, digits, underscore. -/
def isWordChar (c : Char) : Bool := c.isAlphanum || c == '_'

/-- The characters of Python regex `\s` (ASCII part): space, tab, newline,
carriage return, vertical tab, form feed. -/
def pySpace : List Char := [' ', '\t', '\n', '\r', '\x0b', '\x0c']

/-- Python regex `\s` membership (ASCII part). -/
def isSpaceChar (c : Char) : Bool := pySpace.contains c

/-- ASCII lower-casing, the effect of `re.IGNORECASE` on one character. -/
def lowAZ (c : Char) : Char :=
  if 'A' ≤ c && c ≤ 'Z' then Char.ofNat (c.toNat + 32) else c

/-- Case-insensitive character comparison (`re.IGNORECASE`). -/
def ciEq (p c : Char) : Bool := lowAZ p == lowAZ c

/-- Case-insensitive "the subject starts with the pattern word". -/
def startsWithCI : List Char → List Char → Bool
  | [], _ => true
  | _ :: _, [] => false
  | p :: ps, c :: cs => ciEq p c && startsWithCI ps cs

/-- Word boundary on the right of a match: next character absent or non-word.
This is `\b` placed after a word character. -/
def nextNonWord : List Char → Bool
  | [] => true
  | c :: _ => !isWordChar c

/-- Word boundary on the right of a non-word token: next character present and
a word character.  This is `\b` placed after a non-word character. -/
def nextIsWord : List Char → Bool
  | [] => false
  | c :: _ => isWordChar c

/-- The eleven keyword alternatives of the `FORBIDDEN` pattern in
`app_streamlit_upload_db_ui.py`, lines 34-36. -/
def forbiddenWords : List (List Char) :=
  ["INSERT".toList, "UPDATE".toList, "DELETE".toList, "ALTER".toList,
   "DROP".toList, "TRUNCATE".toList, "VACUUM".toList, "CREATE".toList,
   "GRANT".toList, "REVOKE".toList, "COPY".toList]

/-- A whole-word, case-insensitive match of the word `w` starting at the
current position.  `pw` records whether the character just before the current
position is a word character (`false` at the start of the string), so `!pw`
is the left word boundary `\b` in front of a word; `nextNonWord` after the
word is the right `\b`. -/
def wordHitHere (pw : Bool) (w s : List Char) : Bool :=
  !pw && startsWithCI w s && nextNonWord (s.drop w.length)

/-- A match of the `;` alternative of `FORBIDDEN` at the current position:
`\b;\b` holds exactly when a word character is adjacent on both sides of the
semicolon, since `;` itself is a non-word character. -/
def semiHitHere (pw : Bool) : List Char → Bool
  | [] => false
  | c :: rest => pw && (c == ';') && nextIsWord rest

/-- Helper for the second `$` of the `\$\$` alternative. -/
def dollarTail : List Char → Bool
  | [] => false
  | d :: rest => (d == '$') && nextIsWord rest

/-- A match of the `\$\$` alternative of `FORBIDDEN` at the current position:
`\b\$\$\b` needs a word character right before the first `$` and right after
the second one. -/
def dollarHitHere (pw : Bool) : List Char → Bool
  | [] => false
  | c :: rest => pw && (c == '$') && dollarTail rest

/-- A keyword alternative of `FORBIDDEN` matches at the current position. -/
def keywordHitHere (pw : Bool) (s : List Char) : Bool :=
  forbiddenWords.any fun w => wordHitHere pw w s

/-- Some alternative of `FORBIDDEN` matches at the current position. -/
def forbiddenHitHere (pw : Bool) (s : List Char) : Bool :=
  keywordHitHere pw s || semiHitHere pw s || dollarHitHere pw s

/-- `re.search`: scan every position of the string, tracking in `pw` whether
the previous character is a word character (`false` initially). -/
def searchFrom (hit : Bool → List Char → Bool) : Bool → List Char → Bool
  | _, [] => false
  | pw, c :: rest => hit pw (c :: rest) || searchFrom hit (isWordChar c) rest

/-- Number of positions at which `hit` matches (used to state "exactly one
LIMIT clause"). -/
def countFrom (hit : Bool → List Char → Bool) : Bool → List Char → Nat
  | _, [] => 0
  | pw, c :: rest => (if hit pw (c :: rest) then 1 else 0) + countFrom hit (isWordChar c) rest

/-- `FORBIDDEN.search(sql)` of the source, as a Boolean. -/
def forbiddenSearch (s : List Char) : Bool := searchFrom forbiddenHitHere false s

def limitWord : List Char := "LIMIT".toList

def limitHitHere (pw : Bool) (s : List Char) : Bool := wordHitHere pw limitWord s

/-- `re.search(r"\bLIMIT\b", sql, re.IGNORECASE)` of the source. -/
def limitSearch (s : List Char) : Bool := searchFrom limitHitHere false s

/-- Number of whole-word case-insensitive `LIMIT` occurrences. -/
def countLimit (s : List Char) : Nat := countFrom limitHitHere false s

def selWord : List Char := "SELECT".toList

/-- `re.match(r"^\s*SELECT\b", sql, re.IGNORECASE)` of the source: leading
whitespace, then the word SELECT case-insensitively, then a word boundary.
(`\s*` is greedy, but since no whitespace character can start `SELECT`
case-insensitively, consuming the maximal whitespace run is equivalent.) -/
def selectPrefixCI (s : List Char) : Bool :=
  startsWithCI selWord (s.dropWhile isSpaceChar) &&
    nextNonWord ((s.dropWhile isSpaceChar).drop selWord.length)

/-- `sql.count(";")` of the source. -/
def countSemi (s : List Char) : Nat := s.count ';'

/-- Remove the longest suffix of characters satisfying `p`
(Python `str.rstrip` with the corresponding character set). -/
def rstripP (p : Char → Bool) (s : List Char) : List Char :=
  (s.reverse.dropWhile p).reverse

/-- Python `sql.rstrip()` (ASCII whitespace). -/
def rstripSpace (s : List Char) : List Char := rstripP isSpaceChar s

/-- Python `sql.rstrip(";")`. -/
def rstripSemi (s : List Char) : List Char := rstripP (fun c => c == ';') s

/-- The appended row cap, `" LIMIT 100"`. -/
def limitSuffix : List Char := " LIMIT 100".toList

/-- The three `ValueError` causes of `enforce_read_only`, named as in the
specification: `forbidden_keyword` is "Forbidden keywords detected in SQL",
`multiple_statements` is "Multiple statements detected; only SELECT allowed",
`not_a_select` is "Only SELECT queries allowed". -/
inductive RejectCause where
  | forbidden_keyword
  | multiple_statements
  | not_a_select
deriving DecidableEq

deriving instance DecidableEq for Except

/-- `enforce_read_only` of `app_streamlit_upload_db_ui.py`, lines 38-47. -/
def enforce_read_only (sql : List Char) : Except RejectCause (List Char) :=
  if forbiddenSearch sql then .error .forbidden_keyword
  else if countSemi sql > 1 then .error .multiple_statements
  else if !selectPrefixCI sql then .error .not_a_select
  else if !limitSearch sql then .ok (rstripSemi (rstripSpace sql) ++ limitSuffix)
  else .ok sql

/-- The backtick character (written by code so that the file itself contains
no backtick). -/
def btick : Char := Char.ofNat 96

/-- Three backticks, a markdown fence marker. -/
def fenceM : List Char := [btick, btick, btick]

def sqlTag : List Char := "sql".toList

/-- The opening marker of the pattern in `extract_sql`: three backticks
immediately followed by `sql` case-insensitively. -/
def openHere (s : List Char) : Bool :=
  fenceM.isPrefixOf s && startsWithCI sqlTag (s.drop 3)

/-- The characters strictly before the first occurrence of three backticks,
or `none` if there is no such occurrence.  This is what the lazy group
`(.*?)` followed by the closing fence matches (with `re.DOTALL`, `.` is any
character). -/
def beforeFence : List Char → Option (List Char)
  | [] => none
  | c :: rest =>
    if fenceM.isPrefixOf (c :: rest) then some []
    else (beforeFence rest).map (fun b => c :: b)

/-- The whole pattern of `extract_sql` tried at the current position.  After
the opening marker, the greedy `\s*` takes the maximal whitespace run and the
lazy group runs to the first closing fence; backtracking of `\s*` can never
produce a match when this fails, because a shorter whitespace run only puts
whitespace characters (never a backtick) in front of the remaining text. -/
def matchFenceAt (s : List Char) : Option (List Char) :=
  if openHere s then beforeFence ((s.drop 6).dropWhile isSpaceChar) else none

/-- `re.search` for the fenced-block pattern: first position (leftmost) at
which the whole pattern matches. -/
def searchFence : List Char → Option (List Char)
  | [] => none
  | c :: rest =>
    match matchFenceAt (c :: rest) with
    | some g => some g
    | none => searchFence rest

/-- Python `str.strip()` (ASCII whitespace). -/
def stripWS (s : List Char) : List Char := rstripSpace (s.dropWhile isSpaceChar)

/-- `extract_sql` of `app_streamlit_upload_db_ui.py`, lines 49-51. -/
def extract_sql (text : List Char) : List Char :=
  match searchFence text with
  | some g => stripWS g
  | none => stripWS text

/-- An opening marker occurs somewhere in the string (used to state the
"no SQL-tagged fence at all" hypothesis). -/
def hasOpen : List Char → Bool
  | [] => false
  | c :: rest => openHere (c :: rest) || hasOpen rest

/-- An opening marker starts at one of the positions of `xs` when the text
continues with `rest` (used to state "the first opening is after `xs`"). -/
def hasOpenIn : List Char → List Char → Bool
  | [], _ => false
  | c :: xs, rest => openHere (c :: (xs ++ rest)) || hasOpenIn xs rest

/-- A fence marker (three backticks) occurs somewhere in the string (used to
state "the block interior contains no closing fence" / "no closing fence
follows the opening marker"). -/
def containsFence : List Char → Bool
  | [] => false
  | c :: rest => fenceM.isPrefixOf (c :: rest) || containsFence rest

/-- The characters that `enforce_read_only` may strip from the tail of an
accepted statement: ASCII whitespace and the semicolon. -/
def tailOkChars : List Char := pySpace ++ [';']

/-- `keywordHitHere` searched over the whole string: some denylisted keyword
occurs as a case-insensitive whole word. -/
def keywordSearch (s : List Char) : Bool := searchFrom keywordHitHere false s

/-! ### Generic list helpers -/

theorem dropWhile_append_pos (p : Char → Bool) (u v : List Char)
    (h : u.dropWhile p ≠ []) : (u ++ v).dropWhile p = u.dropWhile p ++ v := by
  induction u with
  | nil => exact absurd rfl h
  | cons c r ih =>
    by_cases hc : p c
    · simp only [List.cons_append, List.dropWhile_cons, hc, if_true] at *
      exact ih h
    · simp [List.cons_append, List.dropWhile_cons, hc]

theorem dropWhile_append_neg (p : Char → Bool) (u v : List Char)
    (h : u.dropWhile p = []) : (u ++ v).dropWhile p = v.dropWhile p := by
  induction u with
  | nil => rfl
  | cons c r ih =>
    by_cases hc : p c
    · simp only [List.cons_append, List.dropWhile_cons, hc, if_true] at *
      exact ih h
    · simp only [List.dropWhile_cons, hc, if_false] at h
      cases h

theorem dropWhile_all (p : Char → Bool) (a b : List Char)
    (h : ∀ c ∈ a, p c = true) : (a ++ b).dropWhile p = b.dropWhile p := by
  apply dropWhile_append_neg
  exact List.dropWhile_eq_nil_iff.mpr h

theorem dropWhile_idem (p : Char → Bool) (l : List Char) :
    (l.dropWhile p).dropWhile p = l.dropWhile p := by
  induction l with
  | nil => rfl
  | cons c r ih =>
    by_cases hc : p c
    · simp only [List.dropWhile_cons, hc, if_true]; exact ih
    · simp [List.dropWhile_cons, hc]

theorem mem_of_head?_eq {l : List Char} {c : Char} (h : l.head? = some c) : c ∈ l := by
  cases l with
  | nil => cases h
  | cons a r =>
    simp only [List.head?_cons, Option.some.injEq] at h
    simp [h]

theorem getLast?_append_right {a b : List Char} (h : b ≠ []) :
    (a ++ b).getLast? = b.getLast? := by
  rw [← List.head?_reverse, ← List.head?_reverse, List.reverse_append]
  cases hb : b.reverse with
  | nil => exact absurd (List.reverse_eq_nil_iff.mp hb) h
  | cons x r => rfl

theorem mem_of_getLast?_eq {l : List Char} {c : Char} (h : l.getLast? = some c) : c ∈ l := by
  rw [← List.head?_reverse] at h
  exact List.mem_reverse.mp (mem_of_head?_eq h)

theorem rstripP_append (p : Char → Bool) (a b : List Char)
    (h : ∀ x, a.getLast? = some x → p x = false) :
    rstripP p (a ++ b) = a ++ rstripP p b := by
  unfold rstripP
  rw [List.reverse_append]
  by_cases hb : b.reverse.dropWhile p = []
  · rw [dropWhile_append_neg p _ _ hb, hb]
    cases ha : a.reverse with
    | nil =>
      rw [List.reverse_eq_nil_iff.mp ha]
      simp
    | cons x r =>
      have hx : a.getLast? = some x := by rw [← List.head?_reverse, ha]; rfl
      have hp := h x hx
      have hdw : List.dropWhile p (x :: r) = x :: r := by simp [List.dropWhile_cons, hp]
      rw [hdw, ← ha, List.reverse_reverse]
      simp
  · rw [dropWhile_append_pos p _ _ hb, List.reverse_append, List.reverse_reverse]

theorem rstripP_decomp (p : Char → Bool) (s : List Char) :
    ∃ t, s = rstripP p s ++ t ∧ ∀ c ∈ t, p c = true := by
  refine ⟨(s.reverse.takeWhile p).reverse, ?_, ?_⟩
  · unfold rstripP
    rw [← List.reverse_append, List.takeWhile_append_dropWhile, List.reverse_reverse]
  · intro c hc
    rw [List.mem_reverse] at hc
    exact List.mem_takeWhile_imp hc

theorem any_eq_false_of_mem {l : List (List Char)} {f : List Char → Bool}
    (h : ∀ a ∈ l, f a = false) : l.any f = false := by
  induction l with
  | nil => rfl
  | cons a t ih =>
    simp only [List.any_cons, h a (by simp), Bool.false_or]
    exact ih fun b hb => h b (by simp [hb])

theorem any_congr_mem {l : List (List Char)} {f g : List Char → Bool}
    (h : ∀ a ∈ l, f a = g a) : l.any f = l.any g := by
  induction l with
  | nil => rfl
  | cons a t ih =>
    simp only [List.any_cons]
    rw [h a (by simp), ih fun b hb => h b (by simp [hb])]

/-! ### Facts about case-insensitive word matching -/

theorem startsWithCI_length_le {w u : List Char} (h : startsWithCI w u = true) :
    w.length ≤ u.length := by
  induction w generalizing u with
  | nil => simp
  | cons p ps ih =>
    cases u with
    | nil => simp [startsWithCI] at h
    | cons c cs =>
      rw [startsWithCI, Bool.and_eq_true] at h
      simpa [List.length_cons] using ih h.2

theorem startsWithCI_append_left {w u : List Char} (v : List Char)
    (h : w.length ≤ u.length) : startsWithCI w (u ++ v) = startsWithCI w u := by
  induction w generalizing u with
  | nil => simp [startsWithCI]
  | cons p ps ih =>
    cases u with
    | nil => simp at h
    | cons c cs =>
      simp only [List.cons_append, startsWithCI, List.append_eq]
      rw [ih (by simpa using h)]

theorem startsWithCI_append_inert {w u T : List Char}
    (hT : ∀ c, T.head? = some c → ∀ p ∈ w, ciEq p c = false) :
    startsWithCI w (u ++ T) = startsWithCI w u := by
  induction w generalizing u with
  | nil => simp [startsWithCI]
  | cons p ps ih =>
    cases u with
    | nil =>
      simp only [List.nil_append]
      cases T with
      | nil => rfl
      | cons c cs =>
        have hc := hT c rfl p (by simp)
        simp [startsWithCI, hc]
    | cons a u' =>
      simp only [List.cons_append, startsWithCI, List.append_eq]
      rw [ih fun c hc q hq => hT c hc q (List.mem_cons_of_mem _ hq)]

theorem startsWithCI_take_mem {w u : List Char} (h : startsWithCI w u = true) :
    ∀ c ∈ u.take w.length, ∃ p ∈ w, ciEq p c = true := by
  induction w generalizing u with
  | nil => simp
  | cons p ps ih =>
    cases u with
    | nil => simp [startsWithCI] at h
    | cons a u' =>
      rw [startsWithCI, Bool.and_eq_true] at h
      intro c hc
      rw [List.length_cons, List.take_succ_cons, List.mem_cons] at hc
      rcases hc with rfl | hc
      · exact ⟨p, by simp, h.1⟩
      · obtain ⟨q, hq, hcq⟩ := ih h.2 c hc
        exact ⟨q, by simp [hq], hcq⟩

theorem nextNonWord_append {a : List Char} (b : List Char) (h : a ≠ []) :
    nextNonWord (a ++ b) = nextNonWord a := by
  cases a with
  | nil => exact absurd rfl h
  | cons c r => rfl

/-! ### Decidable facts about the concrete character classes and keywords -/

theorem tailOk_not_word : ∀ c ∈ tailOkChars, isWordChar c = false := by decide

theorem tailOk_not_dollar : ∀ c ∈ tailOkChars, (c == '$') = false := by decide

theorem kw_tail_ciEq :
    ∀ w ∈ forbiddenWords, ∀ p ∈ w, ∀ c ∈ tailOkChars, ciEq p c = false := by decide

theorem kw_ne_nil : ∀ w ∈ forbiddenWords, w ≠ [] := by decide

theorem sel_space_ciEq : ∀ p ∈ selWord, ∀ c ∈ pySpace, ciEq p c = false := by decide

theorem sel_semi_ciEq : ∀ p ∈ selWord, ciEq p ';' = false := by decide

theorem mem_pySpace_of_isSpaceChar {c : Char} (h : isSpaceChar c = true) :
    c ∈ pySpace := by
  unfold isSpaceChar List.contains at h
  exact List.elem_iff.mp h

theorem sel_char_not_space {c : Char} (h : ∃ p ∈ selWord, ciEq p c = true) :
    isSpaceChar c = false := by
  obtain ⟨p, hp, hciq⟩ := h
  by_cases hc : isSpaceChar c = true
  · rw [sel_space_ciEq p hp c (mem_pySpace_of_isSpaceChar hc)] at hciq
    cases hciq
  · exact Bool.not_eq_true _ |>.mp hc

theorem sel_char_not_semi {c : Char} (h : ∃ p ∈ selWord, ciEq p c = true) :
    (c == ';') = false := by
  obtain ⟨p, hp, hciq⟩ := h
  by_cases hc : (c == ';') = true
  · rw [beq_iff_eq] at hc
    subst hc
    rw [sel_semi_ciEq p hp] at hciq
    cases hciq
  · exact Bool.not_eq_true _ |>.mp hc

/-! ### Locality of `FORBIDDEN` matches: an inert tail (whitespace/semicolon
characters only) appended after a nonempty string neither creates nor destroys
a match at a position of that string. -/

theorem wordHitHere_append_inert (pw : Bool) (w u T : List Char)
    (hT : ∀ c, T.head? = some c → c ∈ tailOkChars)
    (hciw : ∀ p ∈ w, ∀ c ∈ tailOkChars, ciEq p c = false) :
    wordHitHere pw w (u ++ T) = wordHitHere pw w u := by
  unfold wordHitHere
  have hsw : startsWithCI w (u ++ T) = startsWithCI w u :=
    startsWithCI_append_inert fun c hc p hp => hciw p hp c (hT c hc)
  rw [hsw]
  by_cases h1 : startsWithCI w u = true
  · have hlen := startsWithCI_length_le h1
    rw [List.drop_append_of_le_length hlen]
    cases hud : u.drop w.length with
    | nil =>
      rw [List.nil_append]
      cases T with
      | nil => rfl
      | cons c cs =>
        have hw := tailOk_not_word c (hT c rfl)
        simp [nextNonWord, hw]
    | cons d r => rw [nextNonWord_append _ (by simp)]
  · have h1' : startsWithCI w u = false := Bool.not_eq_true _ |>.mp h1
    simp [h1']

theorem semiHitHere_append_inert (pw : Bool) (u T : List Char) (hu : u ≠ [])
    (hT : ∀ c, T.head? = some c → c ∈ tailOkChars) :
    semiHitHere pw (u ++ T) = semiHitHere pw u := by
  cases u with
  | nil => exact absurd rfl hu
  | cons c u' =>
    simp only [List.cons_append, semiHitHere]
    cases u' with
    | nil =>
      cases T with
      | nil => rfl
      | cons d r =>
        have hw := tailOk_not_word d (hT d rfl)
        simp [nextIsWord, hw]
    | cons d r => rfl

theorem dollarHitHere_append_inert (pw : Bool) (u T : List Char) (hu : u ≠ [])
    (hT : ∀ c, T.head? = some c → c ∈ tailOkChars) :
    dollarHitHere pw (u ++ T) = dollarHitHere pw u := by
  cases u with
  | nil => exact absurd rfl hu
  | cons c u' =>
    simp only [List.cons_append, dollarHitHere]
    cases u' with
    | nil =>
      cases T with
      | nil => rfl
      | cons d r =>
        have hd := tailOk_not_dollar d (hT d rfl)
        simp [dollarTail, hd]
    | cons d r =>
      simp only [List.cons_append, dollarTail]
      cases r with
      | nil =>
        cases T with
        | nil => rfl
        | cons e r' =>
          have hw := tailOk_not_word e (hT e rfl)
          simp [nextIsWord, hw]
      | cons e r' => rfl

theorem forbiddenHitHere_append_inert (pw : Bool) (u T : List Char) (hu : u ≠ [])
    (hT : ∀ c, T.head? = some c → c ∈ tailOkChars) :
    forbiddenHitHere pw (u ++ T) = forbiddenHitHere pw u := by
  unfold forbiddenHitHere keywordHitHere
  rw [semiHitHere_append_inert pw u T hu hT, dollarHitHere_append_inert pw u T hu hT]
  rw [any_congr_mem fun w hw =>
    wordHitHere_append_inert pw w u T hT fun p hp c hc => kw_tail_ciEq w hw p hp c hc]

/-! ### Search-level lemmas -/

theorem startsWithCI_cons_false {w : List Char} {c : Char} (cs : List Char)
    (hw : w ≠ []) (hc : ∀ p ∈ w, ciEq p c = false) :
    startsWithCI w (c :: cs) = false := by
  cases w with
  | nil => exact absurd rfl hw
  | cons p ps =>
    have := hc p (by simp)
    simp [startsWithCI, this]

theorem searchFrom_inert_none (T : List Char) (hT : ∀ c ∈ T, c ∈ tailOkChars) :
    ∀ pw, searchFrom forbiddenHitHere pw T = false := by
  induction T with
  | nil => intro pw; rfl
  | cons c rest ih =>
    intro pw
    have hc : c ∈ tailOkChars := hT c (by simp)
    have hniw : nextIsWord rest = false := by
      cases rest with
      | nil => rfl
      | cons d r =>
        have := tailOk_not_word d (hT d (by simp))
        simp [nextIsWord, this]
    have hhit : forbiddenHitHere pw (c :: rest) = false := by
      unfold forbiddenHitHere keywordHitHere
      have hkw : (forbiddenWords.any fun w => wordHitHere pw w (c :: rest)) = false := by
        apply any_eq_false_of_mem
        intro w hw
        have hsw : startsWithCI w (c :: rest) = false :=
          startsWithCI_cons_false rest (kw_ne_nil w hw) fun p hp => kw_tail_ciEq w hw p hp c hc
        simp [wordHitHere, hsw]
      have hsemi : semiHitHere pw (c :: rest) = false := by simp [semiHitHere, hniw]
      have hdollar : dollarHitHere pw (c :: rest) = false := by
        have := tailOk_not_dollar c hc
        simp [dollarHitHere, this]
      rw [hkw, hsemi, hdollar]
      rfl
    simp only [searchFrom, hhit, Bool.false_or]
    exact ih (fun d hd => hT d (by simp [hd])) (isWordChar c)

theorem limitSuffix_head_tailOk : ∀ c, limitSuffix.head? = some c → c ∈ tailOkChars := by
  decide

theorem searchFrom_limitSuffix_limit : ∀ pw, searchFrom limitHitHere pw limitSuffix = true := by
  intro pw
  cases pw <;> decide

theorem searchFrom_limitSuffix_forbidden :
    ∀ pw, searchFrom forbiddenHitHere pw limitSuffix = false := by
  intro pw
  cases pw <;> decide

theorem searchFrom_append_right (hit : Bool → List Char → Bool) (xs ys : List Char)
    (h : ∀ pw, searchFrom hit pw ys = true) :
    ∀ pw, searchFrom hit pw (xs ++ ys) = true := by
  induction xs with
  | nil => exact h
  | cons c r ih =>
    intro pw
    simp only [List.cons_append, searchFrom, List.append_eq]
    rw [ih (isWordChar c)]
    simp

theorem searchFrom_append_inert (xs T1 T2 : List Char)
    (h1 : ∀ c, T1.head? = some c → c ∈ tailOkChars)
    (h2 : ∀ c, T2.head? = some c → c ∈ tailOkChars)
    (e1 : ∀ pw, searchFrom forbiddenHitHere pw T1 = false)
    (e2 : ∀ pw, searchFrom forbiddenHitHere pw T2 = false) :
    ∀ pw, searchFrom forbiddenHitHere pw (xs ++ T1) = searchFrom forbiddenHitHere pw (xs ++ T2) := by
  induction xs with
  | nil =>
    intro pw
    rw [List.nil_append, List.nil_append, e1 pw, e2 pw]
  | cons c r ih =>
    intro pw
    simp only [List.cons_append, searchFrom, List.append_eq]
    rw [show (c :: (r ++ T1)) = (c :: r) ++ T1 from rfl,
        show (c :: (r ++ T2)) = (c :: r) ++ T2 from rfl,
        forbiddenHitHere_append_inert pw (c :: r) T1 (by simp) h1,
        forbiddenHitHere_append_inert pw (c :: r) T2 (by simp) h2,
        ih (isWordChar c)]

theorem countFrom_pos (hit : Bool → List Char → Bool) (s : List Char) :
    ∀ pw, searchFrom hit pw s = true → 1 ≤ countFrom hit pw s := by
  induction s with
  | nil =>
    intro pw h
    simp [searchFrom] at h
  | cons c r ih =>
    intro pw h
    simp only [searchFrom, Bool.or_eq_true] at h
    simp only [countFrom]
    rcases h with h | h
    · rw [if_pos h]
      omega
    · have h2 := ih (isWordChar c) h
      by_cases hh : hit pw (c :: r) = true
      · rw [if_pos hh]; omega
      · rw [if_neg hh]; omega

/-! ### What survives the result-bound rewrite `rstrip + " LIMIT 100"` -/

theorem stripped_decomp (s : List Char) :
    ∃ t, s = rstripSemi (rstripSpace s) ++ t ∧ ∀ c ∈ t, c ∈ tailOkChars := by
  obtain ⟨t1, h1, hp1⟩ := rstripP_decomp isSpaceChar s
  obtain ⟨t2, h2, hp2⟩ := rstripP_decomp (fun c => c == ';') (rstripP isSpaceChar s)
  refine ⟨t2 ++ t1, ?_, ?_⟩
  · show s = rstripP (fun c => c == ';') (rstripP isSpaceChar s) ++ (t2 ++ t1)
    conv_lhs => rw [h1]
    rw [← List.append_assoc, ← h2]
  · intro c hc
    rcases List.mem_append.mp hc with hc | hc
    · have hcs := hp2 c hc
      rw [beq_iff_eq] at hcs
      subst hcs
      decide
    · have hmem := mem_pySpace_of_isSpaceChar (hp1 c hc)
      unfold tailOkChars
      exact List.mem_append.mpr (Or.inl hmem)

theorem head_tailOk_of_all {t : List Char} (h : ∀ c ∈ t, c ∈ tailOkChars) :
    ∀ c, t.head? = some c → c ∈ tailOkChars :=
  fun c hc => h c (mem_of_head?_eq hc)

theorem forbiddenSearch_out {s : List Char} (h : forbiddenSearch s = false) :
    forbiddenSearch (rstripSemi (rstripSpace s) ++ limitSuffix) = false := by
  obtain ⟨t, hdec, htail⟩ := stripped_decomp s
  have heq := searchFrom_append_inert (rstripSemi (rstripSpace s)) limitSuffix t
    limitSuffix_head_tailOk (head_tailOk_of_all htail)
    searchFrom_limitSuffix_forbidden (searchFrom_inert_none t htail) false
  unfold forbiddenSearch at h ⊢
  rw [heq, ← hdec]
  exact h

theorem countSemi_out {s : List Char} (h : countSemi s ≤ 1) :
    countSemi (rstripSemi (rstripSpace s) ++ limitSuffix) ≤ 1 := by
  obtain ⟨t, hdec, _⟩ := stripped_decomp s
  have hsplit : countSemi s = countSemi (rstripSemi (rstripSpace s)) + countSemi t := by
    conv_lhs => rw [hdec]
    simp [countSemi, List.count_append]
  have hlim : countSemi limitSuffix = 0 := by decide
  unfold countSemi at *
  rw [List.count_append]
  omega

theorem limitSearch_out (s : List Char) :
    limitSearch (rstripSemi (rstripSpace s) ++ limitSuffix) = true := by
  unfold limitSearch
  exact searchFrom_append_right limitHitHere _ _ searchFrom_limitSuffix_limit false

theorem selectPrefixCI_out {s : List Char} (h : selectPrefixCI s = true) :
    selectPrefixCI (rstripSemi (rstripSpace s) ++ limitSuffix) = true := by
  rw [selectPrefixCI, Bool.and_eq_true] at h
  obtain ⟨h1, h2⟩ := h
  set t0 := s.dropWhile isSpaceChar with ht0
  set sel := t0.take selWord.length with hsel
  set rest := t0.drop selWord.length with hrest
  have hws : s = s.takeWhile isSpaceChar ++ t0 := (List.takeWhile_append_dropWhile _ _).symm
  have hlen : selWord.length ≤ t0.length := startsWithCI_length_le h1
  have htt : t0 = sel ++ rest := (List.take_append_drop _ _).symm
  have hsellen : sel.length = selWord.length := by
    rw [hsel, List.length_take]
    exact min_eq_left hlen
  have hselmem : ∀ c ∈ sel, ∃ p ∈ selWord, ciEq p c = true := startsWithCI_take_mem h1
  have hselne : sel ≠ [] := by
    intro hnil
    rw [hnil] at hsellen
    have h6 : selWord.length = 6 := by decide
    simp at hsellen
    omega
  have hgl : ∀ x, (s.takeWhile isSpaceChar ++ sel).getLast? = some x →
      isSpaceChar x = false ∧ (x == ';') = false := by
    intro x hx
    rw [getLast?_append_right hselne] at hx
    have hex := hselmem x (mem_of_getLast?_eq hx)
    exact ⟨sel_char_not_space hex, sel_char_not_semi hex⟩
  have hs2 : s = (s.takeWhile isSpaceChar ++ sel) ++ rest := by
    conv_lhs => rw [hws, htt]
    rw [List.append_assoc]
  have e1 : rstripSpace s = (s.takeWhile isSpaceChar ++ sel) ++ rstripSpace rest := by
    conv_lhs => rw [hs2]
    exact rstripP_append _ _ _ fun x hx => (hgl x hx).1
  have e2 : rstripSemi (rstripSpace s) =
      (s.takeWhile isSpaceChar ++ sel) ++ rstripSemi (rstripSpace rest) := by
    rw [e1]
    exact rstripP_append _ _ _ fun x hx => (hgl x hx).2
  have hZ : rstripSemi (rstripSpace s) ++ limitSuffix
      = s.takeWhile isSpaceChar ++ (sel ++ (rstripSemi (rstripSpace rest) ++ limitSuffix)) := by
    rw [e2]
    simp [List.append_assoc]
  have hdw : (rstripSemi (rstripSpace s) ++ limitSuffix).dropWhile isSpaceChar
      = sel ++ (rstripSemi (rstripSpace rest) ++ limitSuffix) := by
    rw [hZ, dropWhile_all isSpaceChar _ _ fun c hc => List.mem_takeWhile_imp hc]
    cases hselc : sel with
    | nil => exact absurd hselc hselne
    | cons c0 sel' =>
      have hc0 : isSpaceChar c0 = false := sel_char_not_space (hselmem c0 (by rw [hselc]; simp))
      rw [List.cons_append, List.dropWhile_cons]
      simp [hc0]
  rw [selectPrefixCI, hdw, Bool.and_eq_true]
  have hle : selWord.length ≤ sel.length := by omega
  constructor
  · rw [startsWithCI_append_left _ hle]
    rw [htt, startsWithCI_append_left _ hle] at h1
    exact h1
  · rw [List.drop_left' hsellen]
    obtain ⟨tj, hj, htj⟩ := stripped_decomp rest
    cases hr2 : rstripSemi (rstripSpace rest) with
    | nil =>
      rw [List.nil_append]
      decide
    | cons d r' =>
      rw [hr2] at hj
      rw [hj] at h2
      rw [List.cons_append] at h2 ⊢
      simp only [nextNonWord] at h2 ⊢
      exact h2

/-! ### Branch characterization of `enforce_read_only` on success -/

theorem enforce_ok_cases {s y : List Char} (h : enforce_read_only s = .ok y) :
    forbiddenSearch s = false ∧ countSemi s ≤ 1 ∧ selectPrefixCI s = true ∧
      ((limitSearch s = false ∧ y = rstripSemi (rstripSpace s) ++ limitSuffix) ∨
        (limitSearch s = true ∧ y = s)) := by
  unfold enforce_read_only at h
  by_cases hF : forbiddenSearch s = true
  · rw [if_pos hF] at h
    cases h
  · have hF' : forbiddenSearch s = false := Bool.not_eq_true _ |>.mp hF
    rw [if_neg hF] at h
    by_cases hC : countSemi s > 1
    · rw [if_pos hC] at h
      cases h
    · rw [if_neg hC] at h
      by_cases hS : selectPrefixCI s = true
      · rw [if_neg (by simp [hS])] at h
        by_cases hL : limitSearch s = true
        · rw [if_neg (by simp [hL])] at h
          exact ⟨hF', by omega, hS, Or.inr ⟨hL, (Except.ok.injEq _ _ ▸ h).symm⟩⟩
        · have hL' : limitSearch s = false := Bool.not_eq_true _ |>.mp hL
          rw [if_pos (by simp [hL'])] at h
          exact ⟨hF', by omega, hS, Or.inl ⟨hL', (Except.ok.injEq _ _ ▸ h).symm⟩⟩
      · rw [if_pos (by simp [Bool.not_eq_true _ |>.mp hS])] at h
        cases h

theorem searchFrom_mono (f g : Bool → List Char → Bool)
    (hmono : ∀ pw t, f pw t = true → g pw t = true) (s : List Char) :
    ∀ pw, searchFrom f pw s = true → searchFrom g pw s = true := by
  induction s with
  | nil =>
    intro pw h
    simp [searchFrom] at h
  | cons c r ih =>
    intro pw h
    simp only [searchFrom, Bool.or_eq_true] at h ⊢
    rcases h with h | h
    · exact Or.inl (hmono pw _ h)
    · exact Or.inr (ih (isWordChar c) h)

/-! ### Claims about `enforce_read_only` -/

/-- C1, counterexample: the input `SELECT a LIMIT 1 LIMIT 2` is accepted and
returned verbatim, and the returned string contains two whole-word LIMIT
occurrences, not exactly one, refuting the "exactly one LIMIT clause" part of
the output guarantee as stated. -/
theorem claim_C1_counterexample :
    enforce_read_only ("SELECT a LIMIT 1 LIMIT 2".toList) =
      .ok ("SELECT a LIMIT 1 LIMIT 2".toList) ∧
    countLimit ("SELECT a LIMIT 1 LIMIT 2".toList) = 2 :=
  ⟨by decide, by decide⟩

/-- C1, amended: every string returned by `enforce_read_only` begins (after
leading whitespace) with the case-insensitive word SELECT, contains at most
one semicolon, contains no match of the `FORBIDDEN` denylist pattern (whose
word-boundary semantics covers the semicolon and double-dollar alternatives),
and contains at least one (rather than exactly one) whole-word LIMIT. -/
theorem claim_C1_output_guarantee (s y : List Char) (h : enforce_read_only s = .ok y) :
    selectPrefixCI y = true ∧ countSemi y ≤ 1 ∧ forbiddenSearch y = false ∧
      1 ≤ countLimit y := by
  obtain ⟨hF, hC, hS, hbr⟩ := enforce_ok_cases h
  rcases hbr with ⟨hL, hy⟩ | ⟨hL, hy⟩
  · subst hy
    exact ⟨selectPrefixCI_out hS, countSemi_out hC, forbiddenSearch_out hF,
      countFrom_pos limitHitHere _ false (limitSearch_out s)⟩
  · subst hy
    exact ⟨hS, hC, hF, countFrom_pos limitHitHere _ false hL⟩

/-- Witness for the amended C1 at the concrete accepted input
`SELECT * FROM users`. -/
theorem claim_C1_output_guarantee_witness :
    enforce_read_only ("SELECT * FROM users".toList) =
      .ok ("SELECT * FROM users LIMIT 100".toList) ∧
    (selectPrefixCI ("SELECT * FROM users LIMIT 100".toList) = true ∧
      countSemi ("SELECT * FROM users LIMIT 100".toList) ≤ 1 ∧
      forbiddenSearch ("SELECT * FROM users LIMIT 100".toList) = false ∧
      1 ≤ countLimit ("SELECT * FROM users LIMIT 100".toList)) :=
  ⟨by decide, claim_C1_output_guarantee ("SELECT * FROM users".toList)
    ("SELECT * FROM users LIMIT 100".toList) (by decide)⟩

/-- C2, counterexample: `foo;` contains a semicolon and `$$` is the
double-dollar marker, yet neither is rejected with `forbidden_keyword`; both
fall through to the `not_a_select` rejection, because `\b;\b` and `\b\$\$\b`
only match when flanked by word characters. -/
theorem claim_C2_counterexample :
    (("foo;".toList).contains ';' = true ∧
      enforce_read_only ("foo;".toList) = .error .not_a_select) ∧
    ("$$".toList = ['$', '$'] ∧
      enforce_read_only ("$$".toList) = .error .not_a_select) :=
  ⟨⟨by decide, by decide⟩, ⟨by decide, by decide⟩⟩

/-- C2, amended: every candidate containing one of the eleven denylisted
keywords as a case-insensitive whole word fails with `forbidden_keyword`
(mixed case and whitespace padding included); a semicolon or double-dollar
marker triggers this cause only when flanked by word characters on both
sides. -/
theorem claim_C2_keyword_rejection (s : List Char) (h : keywordSearch s = true) :
    enforce_read_only s = .error .forbidden_keyword := by
  have hF : forbiddenSearch s = true := by
    unfold forbiddenSearch
    unfold keywordSearch at h
    exact searchFrom_mono keywordHitHere forbiddenHitHere
      (fun pw t ht => by simp [forbiddenHitHere, ht]) s false h
  unfold enforce_read_only
  rw [if_pos hF]

/-- Witness for the amended C2 at `DROP TABLE users` (uppercase) and
`update users set age=1` (lowercase). -/
theorem claim_C2_keyword_rejection_witness :
    (keywordSearch ("DROP TABLE users".toList) = true ∧
      enforce_read_only ("DROP TABLE users".toList) = .error .forbidden_keyword) ∧
    (keywordSearch ("update users set age=1".toList) = true ∧
      enforce_read_only ("update users set age=1".toList) = .error .forbidden_keyword) :=
  ⟨⟨by decide, claim_C2_keyword_rejection _ (by decide)⟩,
    ⟨by decide, claim_C2_keyword_rejection _ (by decide)⟩⟩

/-- C3: contrary to the specified scenario (rejection with
`multiple_statements`), the code accepts the exact input
`SELECT * FROM a; SELECT * FROM b` — it contains only one semicolon, so the
`count(";") > 1` guard does not fire — and returns it with ` LIMIT 100`
appended. -/
theorem claim_C3_code_behavior :
    enforce_read_only ("SELECT * FROM a; SELECT * FROM b".toList) =
      .ok ("SELECT * FROM a; SELECT * FROM b LIMIT 100".toList) ∧
    countSemi ("SELECT * FROM a; SELECT * FROM b".toList) = 1 :=
  ⟨by decide, by decide⟩

/-- C4, counterexample: `drop table t` does not begin with SELECT, yet
`enforce_read_only` fails with `forbidden_keyword`, not `not_a_select`,
because the denylist check runs first. -/
theorem claim_C4_counterexample :
    selectPrefixCI ("drop table t".toList) = false ∧
    enforce_read_only ("drop table t".toList) = .error .forbidden_keyword :=
  ⟨by decide, by decide⟩

/-- C4, amended: every candidate that passes the denylist and semicolon-count
checks and does not begin (after leading whitespace) with the case-insensitive
word SELECT fails with `not_a_select`. -/
theorem claim_C4_not_a_select (s : List Char) (hF : forbiddenSearch s = false)
    (hC : countSemi s ≤ 1) (hS : selectPrefixCI s = false) :
    enforce_read_only s = .error .not_a_select := by
  unfold enforce_read_only
  rw [if_neg (by simp [hF]), if_neg (by omega), if_pos (by simp [hS])]

/-- Witness for the amended C4 at `hello world`. -/
theorem claim_C4_not_a_select_witness :
    forbiddenSearch ("hello world".toList) = false ∧
    countSemi ("hello world".toList) ≤ 1 ∧
    selectPrefixCI ("hello world".toList) = false ∧
    enforce_read_only ("hello world".toList) = .error .not_a_select :=
  ⟨by decide, by decide, by decide, claim_C4_not_a_select _ (by decide) (by decide) (by decide)⟩

/-- C5: every accepted candidate without a whole-word LIMIT is returned as the
input with trailing whitespace, then any trailing semicolons, removed and the
exact suffix ` LIMIT 100` appended once. -/
theorem claim_C5_append_limit (s y : List Char) (h : enforce_read_only s = .ok y)
    (hL : limitSearch s = false) :
    y = rstripSemi (rstripSpace s) ++ limitSuffix := by
  obtain ⟨_, _, _, hbr⟩ := enforce_ok_cases h
  rcases hbr with ⟨_, hy⟩ | ⟨hL2, _⟩
  · exact hy
  · rw [hL] at hL2
    cases hL2

/-- Witness for C5 at the scenario input `SELECT * FROM users`, whose output
is `SELECT * FROM users LIMIT 100`. -/
theorem claim_C5_append_limit_witness :
    enforce_read_only ("SELECT * FROM users".toList) =
      .ok ("SELECT * FROM users LIMIT 100".toList) ∧
    limitSearch ("SELECT * FROM users".toList) = false ∧
    "SELECT * FROM users LIMIT 100".toList =
      rstripSemi (rstripSpace ("SELECT * FROM users".toList)) ++ limitSuffix :=
  ⟨by decide, by decide, claim_C5_append_limit _ _ (by decide) (by decide)⟩

/-- C6: every accepted candidate that already contains a whole-word
case-insensitive LIMIT is returned completely unchanged. -/
theorem claim_C6_preserve (s y : List Char) (h : enforce_read_only s = .ok y)
    (hL : limitSearch s = true) : y = s := by
  obtain ⟨_, _, _, hbr⟩ := enforce_ok_cases h
  rcases hbr with ⟨hL2, _⟩ | ⟨_, hy⟩
  · rw [hL] at hL2
    cases hL2
  · exact hy

/-- Witness for C6 at the scenario input `SELECT name FROM t LIMIT 5`. -/
theorem claim_C6_preserve_witness :
    enforce_read_only ("SELECT name FROM t LIMIT 5".toList) =
      .ok ("SELECT name FROM t LIMIT 5".toList) ∧
    limitSearch ("SELECT name FROM t LIMIT 5".toList) = true ∧
    "SELECT name FROM t LIMIT 5".toList = "SELECT name FROM t LIMIT 5".toList :=
  ⟨by decide, by decide, claim_C6_preserve _ _ (by decide) (by decide)⟩

/-- C7, counterexample: `SELECT x LIMIT 5;` ends with a single trailing
semicolon and is accepted, but the semicolon is not stripped: the returned
string is the input itself and still ends with a semicolon, because the
rstrip-and-append rewrite only runs when no LIMIT clause is present. -/
theorem claim_C7_counterexample :
    enforce_read_only ("SELECT x LIMIT 5;".toList) =
      .ok ("SELECT x LIMIT 5;".toList) ∧
    ("SELECT x LIMIT 5;".toList).getLast? = some ';' :=
  ⟨by decide, by decide⟩

/-- C7, amended: for every accepted candidate without a whole-word LIMIT whose
content ends with a trailing semicolon (possibly followed by whitespace), the
semicolon is tolerated and stripped: the returned string does not end with a
semicolon. -/
theorem claim_C7_strip_semicolon (s y : List Char) (h : enforce_read_only s = .ok y)
    (hL : limitSearch s = false) (_hsemi : (rstripSpace s).getLast? = some ';') :
    y.getLast? ≠ some ';' := by
  obtain ⟨_, _, _, hbr⟩ := enforce_ok_cases h
  rcases hbr with ⟨_, hy⟩ | ⟨hL2, _⟩
  · subst hy
    rw [getLast?_append_right (by decide : limitSuffix ≠ [])]
    decide
  · rw [hL] at hL2
    cases hL2

/-- Witness for the amended C7 at `SELECT a FROM t;`. -/
theorem claim_C7_strip_semicolon_witness :
    enforce_read_only ("SELECT a FROM t;".toList) =
      .ok ("SELECT a FROM t LIMIT 100".toList) ∧
    limitSearch ("SELECT a FROM t;".toList) = false ∧
    (rstripSpace ("SELECT a FROM t;".toList)).getLast? = some ';' ∧
    ("SELECT a FROM t LIMIT 100".toList).getLast? ≠ some ';' :=
  ⟨by decide, by decide, by decide,
    claim_C7_strip_semicolon ("SELECT a FROM t;".toList)
      ("SELECT a FROM t LIMIT 100".toList) (by decide) (by decide) (by decide)⟩

/-- C8: `enforce_read_only` is idempotent on its successes: if it accepts `s`
with output `y`, then it also accepts `y` and returns `y` itself. -/
theorem claim_C8_idempotent (s y : List Char) (h : enforce_read_only s = .ok y) :
    enforce_read_only y = .ok y := by
  obtain ⟨hF, hC, hS, hbr⟩ := enforce_ok_cases h
  rcases hbr with ⟨hL, hy⟩ | ⟨hL, hy⟩
  · subst hy
    have hF2 := forbiddenSearch_out hF
    have hC2 := countSemi_out hC
    have hS2 := selectPrefixCI_out hS
    have hL2 := limitSearch_out s
    unfold enforce_read_only
    rw [if_neg (by simp [hF2]), if_neg (by omega), if_neg (by simp [hS2]),
      if_neg (by simp [hL2])]
  · subst hy
    unfold enforce_read_only
    rw [if_neg (by simp [hF]), if_neg (by omega), if_neg (by simp [hS]),
      if_neg (by simp [hL])]

/-- Witness for C8 at `SELECT * FROM users`: re-guarding the output
`SELECT * FROM users LIMIT 100` returns it unchanged. -/
theorem claim_C8_idempotent_witness :
    enforce_read_only ("SELECT * FROM users".toList) =
      .ok ("SELECT * FROM users LIMIT 100".toList) ∧
    enforce_read_only ("SELECT * FROM users LIMIT 100".toList) =
      .ok ("SELECT * FROM users LIMIT 100".toList) :=
  ⟨by decide, claim_C8_idempotent ("SELECT * FROM users".toList)
    ("SELECT * FROM users LIMIT 100".toList) (by decide)⟩

/-! ### Lemmas about the fenced-block extraction -/

theorem containsFence_cons_parts {c : Char} {l : List Char}
    (h : containsFence (c :: l) = false) :
    fenceM.isPrefixOf (c :: l) = false ∧ containsFence l = false := by
  rw [containsFence, Bool.or_eq_false_iff] at h
  exact h

theorem containsFence_append_false {x l : List Char}
    (h : containsFence (x ++ l) = false) : containsFence l = false := by
  induction x with
  | nil => exact h
  | cons c r ih =>
    rw [List.cons_append] at h
    exact ih (containsFence_cons_parts h).2

theorem containsFence_dropWhile_false (p : Char → Bool) {l : List Char}
    (h : containsFence l = false) : containsFence (l.dropWhile p) = false := by
  have hsplit := List.takeWhile_append_dropWhile p l
  rw [← hsplit] at h
  exact containsFence_append_false h

theorem containsFence_dropWhile_append_false (p : Char → Bool) {l x : List Char}
    (h : containsFence (l ++ x) = false) : containsFence (l.dropWhile p ++ x) = false := by
  have hsplit := List.takeWhile_append_dropWhile p l
  rw [← hsplit, List.append_assoc] at h
  exact containsFence_append_false h

theorem beforeFence_none {l : List Char} (h : containsFence l = false) :
    beforeFence l = none := by
  induction l with
  | nil => rfl
  | cons c r ih =>
    obtain ⟨hp, hr⟩ := containsFence_cons_parts h
    rw [beforeFence, if_neg (by simp [hp]), ih hr]
    rfl

theorem isPrefixOf_fence_stable (a : Char) (u' v : List Char) :
    fenceM.isPrefixOf ((a :: u') ++ (fenceM ++ v)) =
      fenceM.isPrefixOf ((a :: u') ++ [btick, btick]) := by
  cases u' with
  | nil => simp [fenceM, List.isPrefixOf]
  | cons b u'' =>
    cases u'' with
    | nil => simp [fenceM, List.isPrefixOf]
    | cons c u''' => simp [fenceM, List.isPrefixOf]

theorem beforeFence_append (u v : List Char)
    (h : containsFence (u ++ [btick, btick]) = false) :
    beforeFence (u ++ (fenceM ++ v)) = some u := by
  induction u with
  | nil =>
    rw [List.nil_append]
    show beforeFence (btick :: ([btick, btick] ++ v)) = some []
    rw [beforeFence, if_pos (by simp [fenceM, List.isPrefixOf])]
  | cons a u' ih =>
    rw [List.cons_append] at h ⊢
    obtain ⟨hp, hr⟩ := containsFence_cons_parts h
    have hst := isPrefixOf_fence_stable a u' v
    rw [List.cons_append, List.cons_append] at hst
    have hp2 : fenceM.isPrefixOf (a :: (u' ++ (fenceM ++ v))) = false := by
      rw [hst]
      exact hp
    rw [beforeFence, if_neg (by simp [hp2]), ih hr]
    rfl

theorem searchFence_cons_of_match {c : Char} {r g : List Char}
    (h : matchFenceAt (c :: r) = some g) : searchFence (c :: r) = some g := by
  rw [searchFence, h]

theorem searchFence_sk (pre rest : List Char) (hpre : hasOpenIn pre rest = false) :
    searchFence (pre ++ rest) = searchFence rest := by
  induction pre with
  | nil => rfl
  | cons c pre' ih =>
    rw [hasOpenIn, Bool.or_eq_false_iff] at hpre
    rw [List.cons_append, searchFence, matchFenceAt, if_neg (by simp [hpre.1])]
    exact ih hpre.2

theorem searchFence_noopen (t : List Char) (ht : hasOpen t = false) :
    searchFence t = none := by
  induction t with
  | nil => rfl
  | cons c r ih =>
    rw [hasOpen, Bool.or_eq_false_iff] at ht
    rw [searchFence, matchFenceAt, if_neg (by simp [ht.1])]
    exact ih ht.2

theorem searchFence_none_of_noFence {l : List Char} (h : containsFence l = false) :
    searchFence l = none := by
  induction l with
  | nil => rfl
  | cons c r ih =>
    obtain ⟨hp, hr⟩ := containsFence_cons_parts h
    have hopen : openHere (c :: r) = false := by simp [openHere, hp]
    rw [searchFence, matchFenceAt, if_neg (by simp [hopen])]
    exact ih hr

theorem extract_sql_eq_of_searchFence_some {t g : List Char}
    (h : searchFence t = some g) : extract_sql t = stripWS g := by
  unfold extract_sql
  rw [h]

theorem extract_sql_eq_of_searchFence_none {t : List Char}
    (h : searchFence t = none) : extract_sql t = stripWS t := by
  unfold extract_sql
  rw [h]

theorem openHere_cons (c1 c2 c3 : Char) (X : List Char)
    (h1 : ciEq 's' c1 = true) (h2 : ciEq 'q' c2 = true) (h3 : ciEq 'l' c3 = true) :
    openHere (btick :: btick :: btick :: c1 :: c2 :: c3 :: X) = true := by
  unfold openHere
  have hsq : sqlTag = ['s', 'q', 'l'] := by decide
  rw [hsq]
  have hpre : fenceM.isPrefixOf (btick :: btick :: btick :: c1 :: c2 :: c3 :: X) = true := by
    simp [fenceM, List.isPrefixOf]
  rw [hpre]
  have hdrop : (btick :: btick :: btick :: c1 :: c2 :: c3 :: X).drop 3 = c1 :: c2 :: c3 :: X := rfl
  rw [hdrop]
  simp [startsWithCI, h1, h2, h3]

theorem matchFenceAt_open (c1 c2 c3 : Char) (body post : List Char)
    (h1 : ciEq 's' c1 = true) (h2 : ciEq 'q' c2 = true) (h3 : ciEq 'l' c3 = true)
    (hb : containsFence (body ++ [btick, btick]) = false) :
    matchFenceAt (btick :: btick :: btick :: c1 :: c2 :: c3 :: (body ++ (fenceM ++ post))) =
      some (body.dropWhile isSpaceChar) := by
  rw [matchFenceAt, if_pos (by simp [openHere_cons c1 c2 c3 _ h1 h2 h3])]
  show beforeFence ((body ++ (fenceM ++ post)).dropWhile isSpaceChar) =
    some (body.dropWhile isSpaceChar)
  by_cases hbody : body.dropWhile isSpaceChar = []
  · rw [dropWhile_append_neg _ _ _ hbody, hbody]
    have hdwf : (fenceM ++ post).dropWhile isSpaceChar = fenceM ++ post := by
      rw [show fenceM ++ post = btick :: ([btick, btick] ++ post) from rfl, List.dropWhile_cons]
      simp [show isSpaceChar btick = false from by decide]
    rw [hdwf]
    exact beforeFence_append [] post (by decide)
  · rw [dropWhile_append_pos _ _ _ hbody]
    exact beforeFence_append _ post (containsFence_dropWhile_append_false isSpaceChar hb)

theorem btick_beq_false {x c : Char} (h : ciEq x c = true) (hx : ciEq x btick = false) :
    (btick == c) = false := by
  by_cases hb : (btick == c) = true
  · rw [beq_iff_eq] at hb
    subst hb
    rw [h] at hx
    cases hx
  · exact Bool.not_eq_true _ |>.mp hb

/-! ### Claims about `extract_sql` -/

/-- C9: when the response text contains a fenced block — an `opening marker`
(three backticks immediately followed by sql, case-insensitively) at its first
opening position, then interior text containing no closing fence, then a
closing fence — `extract_sql` returns exactly the interior of that first block
trimmed of surrounding whitespace; and when the response contains no
SQL-tagged fence at all, it returns the whole response trimmed. -/
theorem claim_C9_extract :
    (∀ pre c1 c2 c3 body post,
        hasOpenIn pre
          ([btick, btick, btick, c1, c2, c3] ++ (body ++ (fenceM ++ post))) = false →
        ciEq 's' c1 = true → ciEq 'q' c2 = true → ciEq 'l' c3 = true →
        containsFence (body ++ [btick, btick]) = false →
        extract_sql (pre ++ ([btick, btick, btick, c1, c2, c3] ++ (body ++ (fenceM ++ post)))) =
          stripWS body) ∧
    (∀ t, hasOpen t = false → extract_sql t = stripWS t) := by
  constructor
  · intro pre c1 c2 c3 body post hpre h1 h2 h3 hb
    have hm : matchFenceAt
        (btick :: ([btick, btick, c1, c2, c3] ++ (body ++ (fenceM ++ post)))) =
        some (body.dropWhile isSpaceChar) := matchFenceAt_open c1 c2 c3 body post h1 h2 h3 hb
    have hs : searchFence (pre ++ ([btick, btick, btick, c1, c2, c3] ++ (body ++ (fenceM ++ post)))) =
        some (body.dropWhile isSpaceChar) := by
      rw [searchFence_sk pre _ hpre]
      exact searchFence_cons_of_match hm
    rw [extract_sql_eq_of_searchFence_some hs]
    unfold stripWS
    rw [dropWhile_idem]
  · intro t ht
    rw [extract_sql_eq_of_searchFence_none (searchFence_noopen t ht)]

/-- Witness for C9: a response with one closed SQL-tagged block yields the
trimmed interior `SELECT 1`, and a response with no fence is returned whole,
trimmed. -/
theorem claim_C9_extract_witness :
    (hasOpenIn ("ok ".toList)
        ([btick, btick, btick, 's', 'q', 'l'] ++
          (" SELECT 1\n".toList ++ (fenceM ++ " bye".toList))) = false ∧
      containsFence (" SELECT 1\n".toList ++ [btick, btick]) = false ∧
      extract_sql ("ok ".toList ++ ([btick, btick, btick, 's', 'q', 'l'] ++
          (" SELECT 1\n".toList ++ (fenceM ++ " bye".toList)))) =
        stripWS (" SELECT 1\n".toList) ∧
      stripWS (" SELECT 1\n".toList) = "SELECT 1".toList) ∧
    (hasOpen ("no fences here".toList) = false ∧
      extract_sql ("no fences here".toList) = stripWS ("no fences here".toList)) :=
  ⟨⟨by decide, by decide,
      claim_C9_extract.1 ("ok ".toList) 's' 'q' 'l' (" SELECT 1\n".toList) (" bye".toList)
        (by decide) (by decide) (by decide) (by decide) (by decide),
      by decide⟩,
    ⟨by decide, claim_C9_extract.2 ("no fences here".toList) (by decide)⟩⟩

/-- C10: when the response contains an opening SQL-tagged fence marker (here,
at its first opening position) but no closing fence after it, `extract_sql`
returns the entire response trimmed — the fence marker included — rather than
the text after the opening marker. -/
theorem claim_C10_unclosed (pre rest : List Char) (c1 c2 c3 : Char)
    (hpre : hasOpenIn pre ([btick, btick, btick, c1, c2, c3] ++ rest) = false)
    (h1 : ciEq 's' c1 = true) (h2 : ciEq 'q' c2 = true) (h3 : ciEq 'l' c3 = true)
    (hrest : containsFence rest = false) :
    extract_sql (pre ++ ([btick, btick, btick, c1, c2, c3] ++ rest)) =
      stripWS (pre ++ ([btick, btick, btick, c1, c2, c3] ++ rest)) := by
  have hc1 : (btick == c1) = false := btick_beq_false h1 (by decide)
  have hc2 : (btick == c2) = false := btick_beq_false h2 (by decide)
  have hc3 : (btick == c3) = false := btick_beq_false h3 (by decide)
  have s6 : searchFence rest = none := searchFence_none_of_noFence hrest
  have s5 : searchFence (c3 :: rest) = none := by
    have ho : openHere (c3 :: rest) = false := by
      simp [openHere, fenceM, List.isPrefixOf, hc3]
    rw [searchFence, matchFenceAt, if_neg (by simp [ho])]
    exact s6
  have s4 : searchFence (c2 :: c3 :: rest) = none := by
    have ho : openHere (c2 :: c3 :: rest) = false := by
      simp [openHere, fenceM, List.isPrefixOf, hc2]
    rw [searchFence, matchFenceAt, if_neg (by simp [ho])]
    exact s5
  have s3 : searchFence (c1 :: c2 :: c3 :: rest) = none := by
    have ho : openHere (c1 :: c2 :: c3 :: rest) = false := by
      simp [openHere, fenceM, List.isPrefixOf, hc1]
    rw [searchFence, matchFenceAt, if_neg (by simp [ho])]
    exact s4
  have s2 : searchFence (btick :: c1 :: c2 :: c3 :: rest) = none := by
    have ho : openHere (btick :: c1 :: c2 :: c3 :: rest) = false := by
      simp [openHere, fenceM, List.isPrefixOf, hc1]
    rw [searchFence, matchFenceAt, if_neg (by simp [ho])]
    exact s3
  have s1 : searchFence (btick :: btick :: c1 :: c2 :: c3 :: rest) = none := by
    have ho : openHere (btick :: btick :: c1 :: c2 :: c3 :: rest) = false := by
      simp [openHere, fenceM, List.isPrefixOf, hc1]
    rw [searchFence, matchFenceAt, if_neg (by simp [ho])]
    exact s2
  have hbf : beforeFence (rest.dropWhile isSpaceChar) = none :=
    beforeFence_none (containsFence_dropWhile_false isSpaceChar hrest)
  have hm0 : matchFenceAt (btick :: btick :: btick :: c1 :: c2 :: c3 :: rest) = none := by
    rw [matchFenceAt]
    by_cases ho : openHere (btick :: btick :: btick :: c1 :: c2 :: c3 :: rest) = true
    · rw [if_pos (by simp [ho])]
      exact hbf
    · rw [if_neg ho]
  have s0 : searchFence (btick :: btick :: btick :: c1 :: c2 :: c3 :: rest) = none := by
    rw [searchFence, hm0]
    exact s1
  have htot : searchFence (pre ++ ([btick, btick, btick, c1, c2, c3] ++ rest)) = none := by
    rw [searchFence_sk pre _ hpre]
    exact s0
  rw [extract_sql_eq_of_searchFence_none htot]

/-- Witness for C10: an unclosed mixed-case opening marker makes
`extract_sql` return the whole trimmed response. -/
theorem claim_C10_unclosed_witness :
    hasOpenIn ("x ".toList) ([btick, btick, btick, 'S', 'Q', 'L'] ++ " no close".toList) = false ∧
    containsFence (" no close".toList) = false ∧
    extract_sql ("x ".toList ++ ([btick, btick, btick, 'S', 'Q', 'L'] ++ " no close".toList)) =
      stripWS ("x ".toList ++ ([btick, btick, btick, 'S', 'Q', 'L'] ++ " no close".toList)) :=
  ⟨by decide, by decide,
    claim_C10_unclosed ("x ".toList) (" no close".toList) 'S' 'Q' 'L'
      (by decide) (by decide) (by decide) (by decide) (by decide)⟩
